import Mathlib

/-!
Verification of the countdown / next-event engine, the retry-with-backoff
wrapper, the reference validator and the remaining-time formatter of the
icfpdx.org site scripts.  The JavaScript sources exist in three variants
(src/script.js, src/unnamed/part_000, src/unnamed/part_001); each Lean
definition names the variant and the function it embeds.

Modelling conventions:
* instants and durations are milliseconds; `now` is an integer (`ℤ`) for the
  fixed-date engine, and a nonnegative count of milliseconds since an epoch
  that falls on a Sunday 00:00 (`ℕ`) for the weekly-recurring engine, so that
  `getDay`, `getHours`, `getMinutes` become `/` and `%` by constants;
* `Math.random()` is an arbitrary function `ℕ → ℚ` (one draw per attempt)
  constrained to `[0, 1)` where a claim needs it;
* the result of `new Date(string)` parsing is abstracted by `DateAttr`
  (attribute missing / unparsable (NaN) / a parsed timestamp), since the
  actual string-to-date parser belongs to the JS runtime, not the repository.
-/

namespace Icfpdx

/-! ### Regex engine for `isValidReference` (script.js lines 4-7, part_001 lines 9-13)

The source tests `/^[1-3]?\s?[A-Za-z ]+\s\d{1,3}:\d{1,3}$/` against the
trimmed input.  We embed the regular expression as a datatype and match with
Brzozowski derivatives (anchored matching of the whole string, which is what
`^...$` with `RegExp.test` does). -/

inductive RE where
  | emp : RE
  | eps : RE
  | cls (p : Char → Bool) : RE
  | seq (r₁ r₂ : RE) : RE
  | alt (r₁ r₂ : RE) : RE
  | star (r : RE) : RE

def RE.nullable : RE → Bool
  | .emp => false
  | .eps => true
  | .cls _ => false
  | .seq a b => a.nullable && b.nullable
  | .alt a b => a.nullable || b.nullable
  | .star _ => true

def RE.deriv : RE → Char → RE
  | .emp, _ => .emp
  | .eps, _ => .emp
  | .cls p, c => if p c then .eps else .emp
  | .seq a b, c =>
      if a.nullable then .alt (.seq (a.deriv c) b) (b.deriv c)
      else .seq (a.deriv c) b
  | .alt a b, c => .alt (a.deriv c) (b.deriv c)
  | .star a, c => .seq (a.deriv c) (.star a)

/-- Whole-string (anchored) matching by iterated derivatives. -/
def RE.rmatch (r : RE) (s : List Char) : Bool :=
  (s.foldl RE.deriv r).nullable

/-- Regex `r?`. -/
def RE.opt (r : RE) : RE := .alt .eps r

/-- Regex `r+`. -/
def RE.plus (r : RE) : RE := .seq r (.star r)

/-- Regex `r` repeated one to three times. -/
def RE.rep1to3 (r : RE) : RE := .seq r (RE.opt (.seq r (RE.opt r)))

/-- The `\s` character class of JavaScript regexes (ASCII part; the unicode
space characters are irrelevant to the inputs considered here). -/
def isJsSpace (c : Char) : Bool :=
  c = ' ' || c = '\t' || c = '\n' || c = '\r' || c = '\x0b' || c = '\x0c'

/-- Character class `[1-3]`. -/
def isBookNum (c : Char) : Bool := c = '1' || c = '2' || c = '3'

/-- Character class `[A-Za-z ]`. -/
def isBookChar (c : Char) : Bool := c.isAlpha || c = ' '

/-- The source regex `/^[1-3]?\s?[A-Za-z ]+\s\d{1,3}:\d{1,3}$/`. -/
def simpleRegex : RE :=
  .seq (RE.opt (.cls isBookNum))
    (.seq (RE.opt (.cls isJsSpace))
      (.seq (RE.plus (.cls isBookChar))
        (.seq (.cls isJsSpace)
          (.seq (RE.rep1to3 (.cls Char.isDigit))
            (.seq (.cls (· = ':'))
              (RE.rep1to3 (.cls Char.isDigit)))))))

/-- JS `String.prototype.trim`: strip whitespace from both ends. -/
def jsTrim (s : List Char) : List Char :=
  ((s.dropWhile isJsSpace).reverse.dropWhile isJsSpace).reverse

/-- script.js lines 4-7 / part_001 lines 9-13: `isValidReference`. -/
def isValidReference (reference : String) : Bool :=
  simpleRegex.rmatch (jsTrim reference.data)

/-! ### `formatRemaining` (script.js lines 84-94)

`ms` ranges over the finite JS numbers that arise as date differences, i.e.
integers; the `isNaN` guard of the source corresponds to the NaN case that is
kept out of this type (see `DateAttr.invalid` below).  `Math.floor (ms / 1000)`
is floor division `Int.fdiv`. -/

def totalSecondsOf (ms : ℤ) : ℕ := (max 0 (Int.fdiv ms 1000)).toNat

def daysOf (ms : ℤ) : ℕ := totalSecondsOf ms / 86400

def hoursOf (ms : ℤ) : ℕ := totalSecondsOf ms % 86400 / 3600

def minutesOf (ms : ℤ) : ℕ := totalSecondsOf ms % 3600 / 60

def secondsOf (ms : ℤ) : ℕ := totalSecondsOf ms % 60

def formatRemaining (ms : ℤ) : String :=
  toString (daysOf ms) ++ "d " ++ toString (hoursOf ms) ++ "h " ++
    toString (minutesOf ms) ++ "m " ++ toString (secondsOf ms) ++ "s"

/-! ### Event model shared by the countdown engines

An event card carries a title (its `h3` text) and a `data-date` attribute.
`DateAttr` abstracts `card.getAttribute("data-date")` combined with
`new Date(dateStr)`: the attribute may be absent, parse to NaN, or parse to a
timestamp `t` (milliseconds). -/

inductive DateAttr where
  | missing : DateAttr
  | invalid : DateAttr
  | valid (t : ℤ) : DateAttr
deriving DecidableEq

structure Event where
  title : String
  date : DateAttr
deriving DecidableEq

/-! ### script.js `updateCountdowns` (lines 96-158) -/

inductive StatusJS where
  | noDate : StatusJS
  | invalidDate : StatusJS
  | imminent : StatusJS
  | concluded : StatusJS
  | upcoming : StatusJS
deriving DecidableEq

/-- The per-card countdown text of script.js lines 101-136. -/
def displayJS (now : ℤ) (e : Event) : String :=
  match e.date with
  | .missing => "No date set"
  | .invalid => "Invalid date format"
  | .valid t =>
    let diff := t - now
    if diff ≤ 0 then
      if |diff| < 3 * 3600 * 1000 then "Happening now" else "Event ended"
    else "Starts in " ++ formatRemaining diff

/-- Classification of the branches of script.js lines 101-136 (which branch
of the per-card processing runs). -/
def statusJS (now : ℤ) (e : Event) : StatusJS :=
  match e.date with
  | .missing => .noDate
  | .invalid => .invalidDate
  | .valid t =>
    let diff := t - now
    if diff ≤ 0 then
      if |diff| < 3 * 3600 * 1000 then .imminent else .concluded
    else .upcoming

/-- script.js lines 128-135: the `upcoming` array, in input order; each pushed
entry keeps the card (here: its index) and `eventDate` (the diff is
`eventDate - now`). -/
def upcomingList (now : ℤ) (events : List Event) : List (ℕ × ℤ) :=
  events.enum.filterMap fun p =>
    match p.2.date with
    | .valid t => if 0 < t - now then some (p.1, t) else none
    | _ => none

/-- script.js line 143-144: `upcoming.sort((a, b) => a.eventDate - b.eventDate)`
followed by `upcoming[0]`.  `Array.prototype.sort` is a stable sort, embedded
as insertion sort on the `eventDate` key. -/
def selectNextJS (now : ℤ) (events : List Event) : Option (ℕ × ℤ) :=
  (List.insertionSort (fun a b : ℕ × ℤ => a.2 ≤ b.2) (upcomingList now events)).head?

/-- script.js lines 138-157: the `next-event-banner` text.  `fmt` abstracts
`Date.prototype.toLocaleString` (a host-locale function, external to the
repository). -/
def bannerJS (fmt : ℤ → String) (now : ℤ) (events : List Event) : String :=
  match selectNextJS now events with
  | none => "No upcoming events."
  | some (i, t) =>
    (match events.get? i with
     | some e => if e.title = "" then "Next Event" else e.title
     | none => "Next Event") ++
      " — " ++ fmt t ++ " • Starts in " ++ formatRemaining (t - now)

/-! ### part_000 `updateCountdowns` (lines 217-273)

This variant has no `isNaN` guard: `new Date(dateStr)` is used directly.
A missing attribute gives `new Date(null)`, which is the epoch (timestamp 0);
an unparsable one gives NaN.  NaN timestamps are modelled by `Option ℤ` with
`none` for NaN, and the JS comparison/equality semantics on NaN (always
false) by the `nan*` helpers. -/

def parseDate000 : DateAttr → Option ℤ
  | .missing => some 0
  | .invalid => none
  | .valid t => some t

/-- JS comparison `x <= b` where `x` may be NaN (`none`): false for NaN. -/
def nanLe (a : Option ℤ) (b : ℤ) : Bool :=
  match a with
  | some x => decide (x ≤ b)
  | none => false

/-- String interpolation of a possibly-NaN number. -/
def nanToString : Option ℤ → String
  | some x => toString x
  | none => "NaN"

/-- JS `Math.ceil (a / b)` for integer `a` and positive integer `b`. -/
def jsCeilDiv (a b : ℤ) : ℤ := -(Int.fdiv (-a) b)

/-- part_000 lines 224-249: per-card countdown text.  For an unparsable date
`timeDiff` is NaN, so `timeDiff <= 0` is false and the future-event branch
runs with `daysDiff = NaN`, printing "in NaN days". -/
def display000 (now : ℤ) (e : Event) : String :=
  let timeDiff := (parseDate000 e.date).map fun t => t - now
  if nanLe timeDiff 0 then "Event Concluded"
  else
    let daysDiff := timeDiff.map fun d => jsCeilDiv d 86400000
    if daysDiff = some 0 then "Happening TODAY!"
    else if daysDiff = some 1 then "Tomorrow!"
    else "in " ++ nanToString daysDiff ++ " days"

inductive Status000 where
  | concluded : Status000
  | today : Status000
  | tomorrow : Status000
  | upcoming : Status000
  | nanDate : Status000
deriving DecidableEq

/-- Classification of the branches of part_000 lines 234-249 (`nanDate` marks
the NaN case, which the code itself does not distinguish: it falls into the
future-event display branch). -/
def status000 (now : ℤ) (e : Event) : Status000 :=
  let timeDiff := (parseDate000 e.date).map fun t => t - now
  if nanLe timeDiff 0 then .concluded
  else
    match timeDiff with
    | none => .nanDate
    | some d =>
      if jsCeilDiv d 86400000 = 0 then .today
      else if jsCeilDiv d 86400000 = 1 then .tomorrow
      else .upcoming

/-- part_000 lines 250-259: one step of the `nextEvent` / `nextEventTimeDiff`
tracking.  The accumulator is `none` for the initial
`nextEventTimeDiff = Infinity` (any finite `timeDiff` beats it); a NaN
`timeDiff` never satisfies `timeDiff < nextEventTimeDiff`. -/
def step000 (now : ℤ) (st : Option (ℕ × ℤ)) (p : ℕ × Event) : Option (ℕ × ℤ) :=
  let timeDiff := (parseDate000 p.2.date).map fun t => t - now
  if nanLe timeDiff 0 then st
  else
    match timeDiff with
    | none => st
    | some d =>
      match st with
      | none => some (p.1, d)
      | some q => if d < q.2 then some (p.1, d) else st

/-- part_000 lines 224-261: the selected next event (index and `timeDiff`),
obtained by folding the per-card tracking over the cards in input order. -/
def selectNext000 (now : ℤ) (events : List Event) : Option (ℕ × ℤ) :=
  events.enum.foldl (step000 now) none

/-- The candidate an event contributes to the part_000 tracking: its index and
positive finite `timeDiff`, if any. -/
def candOf000 (now : ℤ) (p : ℕ × Event) : Option (ℕ × ℤ) :=
  match (parseDate000 p.2.date).map fun t => t - now with
  | some d => if 0 < d then some (p.1, d) else none
  | none => none

/-- The candidates of the part_000 tracking, in input order. -/
def cands000 (now : ℤ) (events : List Event) : List (ℕ × ℤ) :=
  events.enum.filterMap (candOf000 now)

/-- part_000 lines 263-272: the next-event banner (template-literal whitespace
normalized; `fmt` abstracts `toLocaleDateString`). -/
def banner000 (fmt : ℤ → String) (now : ℤ) (events : List Event) : String :=
  match selectNext000 now events with
  | none => "No upcoming events scheduled."
  | some (i, d) =>
    "📅 Next Event: <strong>" ++
      (match events.get? i with | some e => e.title | none => "") ++
      "</strong> on " ++ fmt (now + d) ++ " (" ++
      (if 0 < jsCeilDiv d 86400000 then
        "in " ++ toString (jsCeilDiv d 86400000) ++ " days"
       else "TODAY") ++ ")"

/-! ### part_001 `updateCountdowns` (lines 95-127): weekly recurring events

Instants are milliseconds since an epoch falling on a Sunday 00:00:00.000
(local time, uniform 24-hour days), so `getDay` is `t / msPerDay % 7` with
0 = Sunday as in JS, `getHours` is `t % msPerDay / msPerHour`, and
`getMinutes` is `t % msPerHour / msPerMinute`. -/

def msPerDay : ℕ := 86400000

def msPerHour : ℕ := 3600000

def msPerMinute : ℕ := 60000

def weekday (t : ℕ) : ℕ := t / msPerDay % 7

def hourOf (t : ℕ) : ℕ := t % msPerDay / msPerHour

def minuteOf (t : ℕ) : ℕ := t % msPerHour / msPerMinute

/-- part_001 lines 100-109 and 115-124, generalized over the target weekday
`w`, hour `hh` and minute `mm`: `deltaDays = (w - currentDay + 7) % 7`
(written `w + 7 - currentDay` because of truncating `ℕ` subtraction;
`currentDay < 7` so the values agree with JS), bumped to 7 when the target
time-of-day today has already been reached, then
`setDate (getDate () + deltaDays); setHours (hh, mm, 0, 0)`. -/
def nextOccurrence (w hh mm now : ℕ) : ℕ :=
  (now / msPerDay +
    (if (w + 7 - weekday now) % 7 = 0 ∧
        (hh < hourOf now ∨ (hourOf now = hh ∧ mm ≤ minuteOf now))
     then 7 else (w + 7 - weekday now) % 7)) * msPerDay
  + (hh * msPerHour + mm * msPerMinute)

/-- part_001 lines 100-109: next Sunday Worship, 10:30 AM
(`daysUntilNextSunday = (7 - currentDay) % 7`, bumped when
`hours > 10 || (hours === 10 && minutes >= 30)`). -/
def nextWorship (now : ℕ) : ℕ := nextOccurrence 0 10 30 now

/-- part_001 lines 115-124: next Friday Prayer, 7:00 PM
(`daysUntilNextFriday = (5 - currentDay + 7) % 7`, bumped when
`hours > 19 || (hours === 19 && minutes >= 0)`). -/
def nextPrayer (now : ℕ) : ℕ := nextOccurrence 5 19 0 now

/-! ### First-minimum selection machinery

`merge` combines two intermediate "best so far" values the way both variants
do: the later value wins only when its key is strictly smaller (script.js via
a stable ascending sort and `[0]`, part_000 via `timeDiff < nextEventTimeDiff`). -/

def merge : Option (ℕ × ℤ) → Option (ℕ × ℤ) → Option (ℕ × ℤ)
  | none, b => b
  | some x, none => some x
  | some x, some y => if y.2 < x.2 then some y else some x

/-- The first element of the list achieving the minimal second component. -/
def firstMinBy (l : List (ℕ × ℤ)) : Option (ℕ × ℤ) :=
  l.foldr (fun x acc => merge (some x) acc) none

/-! ### part_000 `fetchWithRetry` (lines 26-52)

`op i` is the outcome of the `i`-th call of the `fetcher`: either a response
(with `ok` flag and numeric `status`) or a transport-level error that makes
`await fetcher()` throw.  `rand i` is the `Math.random()` draw of attempt `i`
(at most one delay is computed per loop iteration).  The loop recursion is
driven by `fuel`, which at every reachable call equals `maxRetries - i`, the
number of remaining iterations of `for (let i = 0; i < maxRetries; i++)`. -/

structure Response where
  ok : Bool
  status : ℕ
deriving DecidableEq

inductive AttemptResult where
  | resp (r : Response) : AttemptResult
  | netError : AttemptResult
deriving DecidableEq

/-- How the call ends: a normal `return response`, a thrown error, or falling
off the loop (JS would return `undefined`; only possible when
`maxRetries = 0`). -/
inductive RetryOutcome where
  | returned (r : Response) : RetryOutcome
  | threw : RetryOutcome
  | fellThrough : RetryOutcome
deriving DecidableEq

/-- Observable trace of one `fetchWithRetry` call: final outcome, number of
`fetcher` invocations, and the sleeps performed (in order, milliseconds). -/
structure Trace where
  outcome : RetryOutcome
  attempts : ℕ
  delays : List ℚ
deriving DecidableEq

/-- part_000 lines 34 and 47: `Math.pow(2, i) * 1000 + Math.random() * 1000`. -/
def backoffDelay (rand : ℕ → ℚ) (i : ℕ) : ℚ := 2 ^ i * 1000 + rand i * 1000

/-- part_000 lines 27-51: the retry loop.  A non-OK, non-429 response (and a
429 on the final attempt) is thrown inside the `try` and handled by its own
`catch`, which rethrows on the final attempt and otherwise sleeps the same
backoff and retries; a transport error goes straight to the `catch`. -/
def fetchWithRetryLoop (op : ℕ → AttemptResult) (rand : ℕ → ℚ) (maxRetries : ℕ) :
    ℕ → ℕ → Trace
  | _, 0 => ⟨.fellThrough, 0, []⟩
  | i, fuel + 1 =>
    match op i with
    | .resp r =>
      if r.ok then ⟨.returned r, 1, []⟩
      else if r.status = 429 ∧ i < maxRetries - 1 then
        let t := fetchWithRetryLoop op rand maxRetries (i + 1) fuel
        ⟨t.outcome, t.attempts + 1, backoffDelay rand i :: t.delays⟩
      else if i = maxRetries - 1 then ⟨.threw, 1, []⟩
      else
        let t := fetchWithRetryLoop op rand maxRetries (i + 1) fuel
        ⟨t.outcome, t.attempts + 1, backoffDelay rand i :: t.delays⟩
    | .netError =>
      if i = maxRetries - 1 then ⟨.threw, 1, []⟩
      else
        let t := fetchWithRetryLoop op rand maxRetries (i + 1) fuel
        ⟨t.outcome, t.attempts + 1, backoffDelay rand i :: t.delays⟩

def fetchWithRetry (op : ℕ → AttemptResult) (rand : ℕ → ℚ) (maxRetries : ℕ) :
    Trace :=
  fetchWithRetryLoop op rand maxRetries 0 maxRetries

/-- Attempt `i` did not produce an OK response (a failed response or a
transport error). -/
def opFails (op : ℕ → AttemptResult) (i : ℕ) : Prop :=
  op i = .netError ∨ ∃ r, op i = .resp r ∧ r.ok = false

/-- An operation that is rate-limited on every call. -/
def op429 : ℕ → AttemptResult := fun _ => .resp ⟨false, 429⟩

/-- An operation that fails with a 500 on every call. -/
def op500 : ℕ → AttemptResult := fun _ => .resp ⟨false, 500⟩

/-- A degenerate random source. -/
def zeroRand : ℕ → ℚ := fun _ => 0

/-- A trivial locale formatter, used when instantiating theorems whose
statements abstract `toLocaleString` / `toLocaleDateString`. -/
def noFmt : ℤ → String := fun _ => ""

/-- Concrete sample data: three cards, the 2nd and 3rd tied at the minimal
positive remaining time (3000 ms from instant 0). -/
def sampleEvents : List Event :=
  [⟨"A", .valid 5000⟩, ⟨"B", .valid 3000⟩, ⟨"C", .valid 3000⟩]

/-- Concrete sample data: a single long-concluded card. -/
def concludedEvents : List Event := [⟨"A", .valid (-20000000000)⟩]

theorem merge_none_left (b : Option (ℕ × ℤ)) : merge none b = b := rfl

theorem merge_none_right (a : Option (ℕ × ℤ)) : merge a none = a := by
  cases a <;> rfl

theorem merge_assoc (a b c : Option (ℕ × ℤ)) :
    merge (merge a b) c = merge a (merge b c) := by
  rcases a with _ | x
  · rfl
  rcases b with _ | y
  · cases c <;> rfl
  rcases c with _ | z
  · rw [merge_none_right, merge_none_right]
  · show merge (if y.2 < x.2 then some y else some x) (some z) =
      merge (some x) (if z.2 < y.2 then some z else some y)
    by_cases h1 : y.2 < x.2 <;> by_cases h2 : z.2 < y.2 <;>
      simp only [h1, h2, if_true, if_false, merge] <;>
      split_ifs <;>
      first
        | rfl
        | (exfalso; omega)

theorem firstMinBy_nil : firstMinBy [] = none := rfl

theorem firstMinBy_cons (x : ℕ × ℤ) (l : List (ℕ × ℤ)) :
    firstMinBy (x :: l) = merge (some x) (firstMinBy l) := rfl

theorem firstMinBy_eq_none_iff (l : List (ℕ × ℤ)) :
    firstMinBy l = none ↔ l = [] := by
  cases l with
  | nil => simp [firstMinBy_nil]
  | cons x xs =>
    rw [firstMinBy_cons]
    cases h : firstMinBy xs with
    | none => simp [merge]
    | some y =>
      simp only [merge]
      split_ifs <;> simp

theorem firstMinBy_mem : ∀ (l : List (ℕ × ℤ)) (p : ℕ × ℤ),
    firstMinBy l = some p → p ∈ l := by
  intro l
  induction l with
  | nil => intro p h; simp [firstMinBy_nil] at h
  | cons x xs ih =>
    intro p h
    rw [firstMinBy_cons] at h
    cases hxs : firstMinBy xs with
    | none =>
      rw [hxs, merge_none_right, Option.some_inj] at h
      simp [h]
    | some y =>
      rw [hxs] at h
      simp only [merge] at h
      split_ifs at h <;> rw [Option.some_inj] at h
      · exact List.mem_cons_of_mem _ (h ▸ ih y hxs)
      · simp [← h]

theorem firstMinBy_min : ∀ (l : List (ℕ × ℤ)) (p : ℕ × ℤ),
    firstMinBy l = some p → ∀ q ∈ l, p.2 ≤ q.2 := by
  intro l
  induction l with
  | nil => intro p h; simp [firstMinBy_nil] at h
  | cons x xs ih =>
    intro p h q hq
    rw [firstMinBy_cons] at h
    cases hxs : firstMinBy xs with
    | none =>
      have hnil := (firstMinBy_eq_none_iff xs).mp hxs
      subst hnil
      rw [hxs, merge_none_right, Option.some_inj] at h
      subst h
      simp at hq
      simp [hq]
    | some y =>
      rw [hxs] at h
      simp only [merge] at h
      split_ifs at h with hlt <;> rw [Option.some_inj] at h <;> subst h
      · rcases List.mem_cons.mp hq with hq | hq
        · subst hq; omega
        · exact ih y hxs q hq
      · rcases List.mem_cons.mp hq with hq | hq
        · subst hq; omega
        · have := ih y hxs q hq; omega

/-- Among candidates whose key equals the selected key, the selected index is
the least, provided indices appear in strictly increasing order (which they
do: they come from `List.enum`).  This is the tie-break of both variants. -/
theorem firstMinBy_first : ∀ (l : List (ℕ × ℤ)) (p : ℕ × ℤ),
    l.Pairwise (fun a b => a.1 < b.1) →
    firstMinBy l = some p → ∀ q ∈ l, q.2 = p.2 → p.1 ≤ q.1 := by
  intro l
  induction l with
  | nil => intro p _ h; simp [firstMinBy_nil] at h
  | cons x xs ih =>
    intro p hpw h q hq hqeq
    rw [firstMinBy_cons] at h
    have hx : ∀ r ∈ xs, x.1 < r.1 := (List.pairwise_cons.mp hpw).1
    have hpw' := (List.pairwise_cons.mp hpw).2
    cases hxs : firstMinBy xs with
    | none =>
      have hnil := (firstMinBy_eq_none_iff xs).mp hxs
      subst hnil
      rw [hxs, merge_none_right, Option.some_inj] at h
      subst h
      simp at hq
      simp [hq]
    | some y =>
      rw [hxs] at h
      simp only [merge] at h
      split_ifs at h with hlt <;> rw [Option.some_inj] at h <;> subst h
      · rcases List.mem_cons.mp hq with hq | hq
        · subst hq; exfalso; omega
        · exact ih y hpw' hxs q hq hqeq
      · rcases List.mem_cons.mp hq with hq | hq
        · subst hq; exact le_rfl
        · exact le_of_lt (hx q hq)

end Icfpdx

namespace Icfpdx

/-- C8: the reference validator accepts "John 3:16" and "1 John 4:8" and
rejects "Johnn 3" (no chapter:verse pair) and the empty string. -/
theorem isValidReference_examples :
    isValidReference "John 3:16" = true ∧
    isValidReference "1 John 4:8" = true ∧
    isValidReference "Johnn 3" = false ∧
    isValidReference "" = false := by
  refine ⟨?_, ?_, ?_, ?_⟩ <;> decide

/-- C10: for every finite millisecond input, `formatRemaining` renders
"{days}d {hours}h {minutes}m {seconds}s" with hours < 24, minutes < 60,
seconds < 60, the components summing to `max 0 ⌊ms / 1000⌋` seconds, and in
particular every negative input renders as "0d 0h 0m 0s". -/
theorem formatRemaining_spec (ms : ℤ) :
    formatRemaining ms =
      toString (daysOf ms) ++ "d " ++ toString (hoursOf ms) ++ "h " ++
        toString (minutesOf ms) ++ "m " ++ toString (secondsOf ms) ++ "s" ∧
    hoursOf ms < 24 ∧ minutesOf ms < 60 ∧ secondsOf ms < 60 ∧
    daysOf ms * 86400 + hoursOf ms * 3600 + minutesOf ms * 60 + secondsOf ms
      = totalSecondsOf ms ∧
    (totalSecondsOf ms : ℤ) = max 0 (Int.fdiv ms 1000) ∧
    (ms < 0 → formatRemaining ms = "0d 0h 0m 0s") := by
  have hfd : Int.fdiv ms 1000 = ms / 1000 := Int.fdiv_eq_ediv ms (by norm_num)
  have hts : (totalSecondsOf ms : ℤ) = max 0 (Int.fdiv ms 1000) := by
    have : (0 : ℤ) ≤ max 0 (Int.fdiv ms 1000) := le_max_left _ _
    simp [totalSecondsOf, Int.toNat_of_nonneg this]
  refine ⟨rfl, ?_, ?_, ?_, ?_, hts, ?_⟩
  · unfold hoursOf; omega
  · unfold minutesOf; omega
  · unfold secondsOf; omega
  · unfold daysOf hoursOf minutesOf secondsOf; omega
  · intro hneg
    have hz : totalSecondsOf ms = 0 := by
      unfold totalSecondsOf
      rw [hfd]
      omega
    unfold formatRemaining daysOf hoursOf minutesOf secondsOf
    rw [hz]
    rfl

/-- Witness for `formatRemaining_spec`: instantiation at `ms = -5`. -/
theorem formatRemaining_spec_witness :
    formatRemaining (-5) = "0d 0h 0m 0s" :=
  (formatRemaining_spec (-5)).2.2.2.2.2.2 (by norm_num)

/-! ### Bridges: both selection implementations compute `firstMinBy` -/

theorem head?_orderedInsert (a b : ℕ × ℤ) (t : List (ℕ × ℤ)) :
    (List.orderedInsert (fun u v : ℕ × ℤ => u.2 ≤ v.2) a (b :: t)).head? =
      merge (some a) (some b) := by
  simp only [List.orderedInsert, merge]
  split_ifs with h1 h2
  · exfalso; omega
  · simp
  · simp
  · exfalso; omega

theorem head?_insertionSort_eq_firstMinBy (l : List (ℕ × ℤ)) :
    (List.insertionSort (fun u v : ℕ × ℤ => u.2 ≤ v.2) l).head? = firstMinBy l := by
  induction l with
  | nil => rfl
  | cons a l ih =>
    rw [List.insertionSort, firstMinBy_cons, ← ih]
    cases hs : List.insertionSort (fun u v : ℕ × ℤ => u.2 ≤ v.2) l with
    | nil => rfl
    | cons b t => rw [head?_orderedInsert]; rfl

/-- script.js sorts by `eventDate` and keeps the head of a stable sort, which
is the first entry with minimal `eventDate`. -/
theorem selectNextJS_eq (now : ℤ) (events : List Event) :
    selectNextJS now events = firstMinBy (upcomingList now events) :=
  head?_insertionSort_eq_firstMinBy _

theorem step000_eq_merge (now : ℤ) (st : Option (ℕ × ℤ)) (p : ℕ × Event) :
    step000 now st p = merge st (candOf000 now p) := by
  unfold step000 candOf000
  cases hpd : (parseDate000 p.2.date).map (fun t => t - now) with
  | none => simp [nanLe, merge_none_right]
  | some d =>
    simp only [nanLe, decide_eq_true_eq]
    by_cases hd : d ≤ 0
    · rw [if_pos hd, if_neg (by omega : ¬0 < d), merge_none_right]
    · rw [if_neg hd, if_pos (by omega : 0 < d)]
      cases st <;> rfl

theorem foldl_step000_eq (now : ℤ) :
    ∀ (l : List (ℕ × Event)) (st : Option (ℕ × ℤ)),
      l.foldl (step000 now) st = merge st (firstMinBy (l.filterMap (candOf000 now))) := by
  intro l
  induction l with
  | nil =>
    intro st
    rw [List.foldl_nil, List.filterMap_nil, firstMinBy_nil, merge_none_right]
  | cons x xs ih =>
    intro st
    rw [List.foldl_cons, ih, step000_eq_merge, merge_assoc]
    congr 1
    rw [List.filterMap_cons]
    cases hc : candOf000 now x with
    | none => rw [merge_none_left]
    | some c => rw [firstMinBy_cons]

/-- part_000 folds `timeDiff < nextEventTimeDiff` over the cards, which keeps
the first entry with minimal positive `timeDiff`. -/
theorem selectNext000_eq (now : ℤ) (events : List Event) :
    selectNext000 now events = firstMinBy (cands000 now events) := by
  unfold selectNext000 cands000
  rw [foldl_step000_eq, merge_none_left]

/-! ### Indices of candidate lists are strictly increasing -/

theorem pairwise_fst_enumFrom (l : List Event) :
    ∀ n : ℕ, (l.enumFrom n).Pairwise fun a b => a.1 < b.1 := by
  induction l with
  | nil => intro n; simp
  | cons x xs ih =>
    intro n
    rw [List.enumFrom_cons, List.pairwise_cons]
    refine ⟨fun b hb => ?_, ih (n + 1)⟩
    exact lt_of_lt_of_le (Nat.lt_succ_self n) (List.le_fst_of_mem_enumFrom hb)

theorem pairwise_fst_filterMap (f : ℕ × Event → Option (ℕ × ℤ))
    (hf : ∀ p q, f p = some q → q.1 = p.1) :
    ∀ l : List (ℕ × Event), (l.Pairwise fun a b => a.1 < b.1) →
      (l.filterMap f).Pairwise fun a b => a.1 < b.1 := by
  intro l
  induction l with
  | nil => intro _; simp
  | cons x xs ih =>
    intro hpw
    rw [List.filterMap_cons]
    have h1 := (List.pairwise_cons.mp hpw).1
    have h2 := ih (List.pairwise_cons.mp hpw).2
    cases hc : f x with
    | none => exact h2
    | some c =>
      rw [List.pairwise_cons]
      refine ⟨fun b hb => ?_, h2⟩
      obtain ⟨a, ha, hfa⟩ := List.mem_filterMap.mp hb
      have hba := hf a b hfa
      have hcx := hf x c hc
      have hxa := h1 a ha
      omega

theorem pairwise_fst_upcomingList (now : ℤ) (events : List Event) :
    (upcomingList now events).Pairwise fun a b => a.1 < b.1 := by
  unfold upcomingList
  refine pairwise_fst_filterMap _ ?_ _ (pairwise_fst_enumFrom events 0)
  intro p q hpq
  cases hd : p.2.date with
  | valid t =>
    rw [hd] at hpq
    simp only at hpq
    split_ifs at hpq
    · rw [Option.some_inj] at hpq
      rw [← hpq]
  | missing => rw [hd] at hpq; simp at hpq
  | invalid => rw [hd] at hpq; simp at hpq

theorem pairwise_fst_cands000 (now : ℤ) (events : List Event) :
    (cands000 now events).Pairwise fun a b => a.1 < b.1 := by
  unfold cands000
  refine pairwise_fst_filterMap _ ?_ _ (pairwise_fst_enumFrom events 0)
  intro p q hpq
  unfold candOf000 at hpq
  cases hpd : (parseDate000 p.2.date).map (fun t => t - now) with
  | none => rw [hpd] at hpq; simp at hpq
  | some d =>
    rw [hpd] at hpq
    simp only at hpq
    split_ifs at hpq
    rw [Option.some_inj] at hpq
    rw [← hpq]

/-! ### Status extraction helpers -/

theorem statusJS_concluded {now : ℤ} {e : Event}
    (h : statusJS now e = .concluded) : ∃ t, e.date = .valid t ∧ t - now ≤ 0 := by
  unfold statusJS at h
  cases hd : e.date with
  | missing => rw [hd] at h; simp at h
  | invalid => rw [hd] at h; simp at h
  | valid t =>
    rw [hd] at h
    simp only at h
    refine ⟨t, rfl, ?_⟩
    by_contra hpos
    rw [if_neg (by omega)] at h
    simp at h

theorem statusJS_upcoming_iff {now : ℤ} {e : Event} {t : ℤ} (hd : e.date = .valid t) :
    statusJS now e = .upcoming ↔ 0 < t - now := by
  unfold statusJS
  rw [hd]
  simp only
  constructor
  · intro h
    by_contra hle
    rw [if_pos (by omega)] at h
    split_ifs at h
  · intro hpos
    rw [if_neg (by omega)]

theorem status000_concluded {now : ℤ} {e : Event}
    (h : status000 now e = .concluded) :
    ∃ d, (parseDate000 e.date).map (fun t => t - now) = some d ∧ d ≤ 0 := by
  unfold status000 at h
  cases htd : (parseDate000 e.date).map (fun t => t - now) with
  | none =>
    rw [htd] at h
    simp [nanLe] at h
  | some d =>
    rw [htd] at h
    simp only [nanLe, decide_eq_true_eq] at h
    by_cases hle : d ≤ 0
    · exact ⟨d, rfl, hle⟩
    · rw [if_neg (by simp [hle])] at h
      split_ifs at h

/-! ### Claim theorems for the next-event selection -/

/-- C1: on every event list with at least one upcoming candidate, the banner
computation of `updateCountdowns` — script.js's stable sort by `eventDate`
plus `upcoming[0]`, and part_000's `timeDiff < nextEventTimeDiff` fold —
selects an event with positive remaining time that is minimal among all
candidates, and on ties the candidate listed first in input order. -/
theorem selectNext_minimal (now : ℤ) (events : List Event)
    (hJS : upcomingList now events ≠ [])
    (h000 : cands000 now events ≠ []) :
    (∃ i t, selectNextJS now events = some (i, t) ∧
      (i, t) ∈ upcomingList now events ∧
      (∀ j u, (j, u) ∈ upcomingList now events → t - now ≤ u - now) ∧
      (∀ j u, (j, u) ∈ upcomingList now events → u - now = t - now → i ≤ j)) ∧
    (∃ i d, selectNext000 now events = some (i, d) ∧
      (i, d) ∈ cands000 now events ∧
      (∀ j u, (j, u) ∈ cands000 now events → d ≤ u) ∧
      (∀ j u, (j, u) ∈ cands000 now events → u = d → i ≤ j)) := by
  constructor
  · cases hfm : firstMinBy (upcomingList now events) with
    | none => exact absurd ((firstMinBy_eq_none_iff _).mp hfm) hJS
    | some p =>
      obtain ⟨i, t⟩ := p
      refine ⟨i, t, ?_, firstMinBy_mem _ _ hfm, ?_, ?_⟩
      · rw [selectNextJS_eq, hfm]
      · intro j u hmem
        have := firstMinBy_min _ _ hfm (j, u) hmem
        simp only at this
        omega
      · intro j u hmem hequ
        exact firstMinBy_first _ _ (pairwise_fst_upcomingList now events) hfm (j, u)
          hmem (by simp only; omega)
  · cases hfm : firstMinBy (cands000 now events) with
    | none => exact absurd ((firstMinBy_eq_none_iff _).mp hfm) h000
    | some p =>
      obtain ⟨i, d⟩ := p
      refine ⟨i, d, ?_, firstMinBy_mem _ _ hfm, ?_, ?_⟩
      · rw [selectNext000_eq, hfm]
      · intro j u hmem
        exact firstMinBy_min _ _ hfm (j, u) hmem
      · intro j u hmem hequ
        exact firstMinBy_first _ _ (pairwise_fst_cands000 now events) hfm (j, u) hmem hequ

/-- Witness for `selectNext_minimal` at instant 0 on `sampleEvents`
(two of the three cards tie at remaining time 3000 ms). -/
theorem selectNext_minimal_witness :
    (∃ i t, selectNextJS 0 sampleEvents = some (i, t) ∧
      (i, t) ∈ upcomingList 0 sampleEvents ∧
      (∀ j u, (j, u) ∈ upcomingList 0 sampleEvents → t - 0 ≤ u - 0) ∧
      (∀ j u, (j, u) ∈ upcomingList 0 sampleEvents → u - 0 = t - 0 → i ≤ j)) ∧
    (∃ i d, selectNext000 0 sampleEvents = some (i, d) ∧
      (i, d) ∈ cands000 0 sampleEvents ∧
      (∀ j u, (j, u) ∈ cands000 0 sampleEvents → d ≤ u) ∧
      (∀ j u, (j, u) ∈ cands000 0 sampleEvents → u = d → i ≤ j)) :=
  selectNext_minimal 0 sampleEvents (by decide) (by decide)

/-- C2 (counterexample): an event 1 ms in the past is imminent ("Happening
now", within the 3-hour window), yet it is not a candidate of the next-event
selection, which returns none — the claim that imminent events are eligible
is false. -/
theorem imminent_event_not_candidate :
    statusJS 0 ⟨"Vigil", .valid (-1)⟩ = .imminent ∧
    displayJS 0 ⟨"Vigil", .valid (-1)⟩ = "Happening now" ∧
    upcomingList 0 [⟨"Vigil", .valid (-1)⟩] = [] ∧
    selectNextJS 0 [⟨"Vigil", .valid (-1)⟩] = none ∧
    selectNext000 0 [⟨"Vigil", .valid (-1)⟩] = none := by
  refine ⟨?_, ?_, ?_, ?_, ?_⟩ <;> decide

/-- C2 (amended): the candidate set of the next-event selection is exactly the
events whose status is `upcoming` (strictly positive remaining time); an event
whose start is at or before `now`, even within the imminent window, is not
eligible. -/
theorem upcoming_candidates_exactly_upcoming (now : ℤ) (events : List Event) :
    (∀ i t, (i, t) ∈ upcomingList now events ↔
      ∃ e, events[i]? = some e ∧ e.date = .valid t ∧ statusJS now e = .upcoming) ∧
    (∀ i e, events[i]? = some e → statusJS now e = .imminent →
      ∀ t, (i, t) ∉ upcomingList now events) := by
  have hiff : ∀ i t, (i, t) ∈ upcomingList now events ↔
      ∃ e, events[i]? = some e ∧ e.date = .valid t ∧ statusJS now e = .upcoming := by
    intro i t
    unfold upcomingList
    rw [List.mem_filterMap]
    constructor
    · rintro ⟨⟨j, e⟩, hmem, hf⟩
      simp only at hf
      cases hd : e.date with
      | missing => rw [hd] at hf; simp at hf
      | invalid => rw [hd] at hf; simp at hf
      | valid u =>
        rw [hd] at hf
        simp only at hf
        split_ifs at hf with hpos
        rw [Option.some_inj, Prod.mk.injEq] at hf
        obtain ⟨hj, hu⟩ := hf
        subst hj; subst hu
        refine ⟨e, ?_, hd, ?_⟩
        · exact List.mk_mem_enum_iff_getElem?.mp hmem
        · exact (statusJS_upcoming_iff hd).mpr hpos
    · rintro ⟨e, hget, hdate, hstatus⟩
      refine ⟨(i, e), List.mk_mem_enum_iff_getElem?.mpr (by rw [hget]), ?_⟩
      have hpos := (statusJS_upcoming_iff hdate).mp hstatus
      simp only
      rw [hdate]
      simp only
      rw [if_pos hpos]
  refine ⟨hiff, ?_⟩
  intro i e hget himm t hmem
  obtain ⟨e', hget', _, hstat'⟩ := (hiff i t).mp hmem
  rw [hget] at hget'
  rw [Option.some_inj] at hget'
  subst hget'
  rw [himm] at hstat'
  simp at hstat'

/-- Witness for `upcoming_candidates_exactly_upcoming`: the imminent event of
the counterexample is indeed excluded at a concrete index. -/
theorem upcoming_candidates_exactly_upcoming_witness :
    (0, (7 : ℤ)) ∉ upcomingList 0 [⟨"Vigil", DateAttr.valid (-1)⟩] :=
  (upcoming_candidates_exactly_upcoming 0 [⟨"Vigil", DateAttr.valid (-1)⟩]).2
    0 ⟨"Vigil", DateAttr.valid (-1)⟩ (by decide) (by decide) 7

/-- C6 (evaluation at the failing input): in the part_000 variant an
unparsable date is rendered "in NaN days" through the future-event branch
(there is no `isNaN` guard), not as a distinct invalid status; script.js does
render "Invalid date format".  In both variants the invalid card is excluded
from the selection and its valid sibling is still processed. -/
theorem part000_invalid_date_shows_nan :
    display000 0 ⟨"Picnic", .invalid⟩ = "in NaN days" ∧
    status000 0 ⟨"Picnic", .invalid⟩ = .nanDate ∧
    displayJS 0 ⟨"Picnic", .invalid⟩ = "Invalid date format" ∧
    statusJS 0 ⟨"Picnic", .invalid⟩ = .invalidDate ∧
    display000 0 ⟨"Retreat", .valid 5000⟩ = "Tomorrow!" ∧
    selectNext000 0 [⟨"Picnic", .invalid⟩, ⟨"Retreat", .valid 5000⟩] = some (1, 5000) ∧
    selectNextJS 0 [⟨"Picnic", .invalid⟩, ⟨"Retreat", .valid 5000⟩] = some (1, 5000) ∧
    upcomingList 0 [⟨"Picnic", .invalid⟩, ⟨"Retreat", .valid 5000⟩] = [(1, 5000)] := by
  refine ⟨?_, ?_, ?_, ?_, ?_, ?_, ?_, ?_⟩ <;> decide

/-- C7: on the empty card list, and on any list in which every card's status
is concluded, both variants select no next event and render their explicit
no-upcoming-events phrase. -/
theorem selectNext_none_cases (fmt : ℤ → String) (now : ℤ) (events : List Event) :
    (selectNextJS now [] = none ∧ bannerJS fmt now [] = "No upcoming events." ∧
     selectNext000 now [] = none ∧
     banner000 fmt now [] = "No upcoming events scheduled.") ∧
    ((∀ e ∈ events, statusJS now e = .concluded) →
      selectNextJS now events = none ∧
      bannerJS fmt now events = "No upcoming events.") ∧
    ((∀ e ∈ events, status000 now e = .concluded) →
      selectNext000 now events = none ∧
      banner000 fmt now events = "No upcoming events scheduled.") := by
  refine ⟨⟨rfl, rfl, rfl, rfl⟩, ?_, ?_⟩
  · intro hconc
    have hup : upcomingList now events = [] := by
      unfold upcomingList
      rw [List.filterMap_eq_nil_iff]
      rintro ⟨i, e⟩ hmem
      have he : e ∈ events := List.snd_mem_of_mem_enumFrom hmem
      obtain ⟨t, hd, hle⟩ := statusJS_concluded (hconc e he)
      simp only
      rw [hd]
      simp only
      rw [if_neg (by omega)]
    have hsel : selectNextJS now events = none := by
      rw [selectNextJS_eq, hup, firstMinBy_nil]
    refine ⟨hsel, ?_⟩
    unfold bannerJS
    rw [hsel]
  · intro hconc
    have hcd : cands000 now events = [] := by
      unfold cands000
      rw [List.filterMap_eq_nil_iff]
      rintro ⟨i, e⟩ hmem
      have he : e ∈ events := List.snd_mem_of_mem_enumFrom hmem
      obtain ⟨d, htd, hle⟩ := status000_concluded (hconc e he)
      unfold candOf000
      simp only
      rw [htd]
      simp only
      rw [if_neg (by omega)]
    have hsel : selectNext000 now events = none := by
      rw [selectNext000_eq, hcd, firstMinBy_nil]
    refine ⟨hsel, ?_⟩
    unfold banner000
    rw [hsel]

/-! ### Retry-loop lemmas -/

theorem backoff_cons_shape (rand : ℕ → ℚ) (i n : ℕ) :
    backoffDelay rand i ::
        (List.range n).map (fun k => backoffDelay rand (i + 1 + k)) =
      (List.range (n + 1)).map fun k => backoffDelay rand (i + k) := by
  rw [List.range_succ_eq_map, List.map_cons, List.map_map]
  refine congrArg₂ (· :: ·) (by simp) (List.map_congr_left fun k _ => ?_)
  simp only [Function.comp_apply, Nat.succ_eq_add_one]
  congr 1
  omega

/-- Shape of a trace: the sleeps are exactly the backoff delays of the
consecutive attempt indices and, within the loop, the number of attempts is
one more than the number of sleeps. -/
theorem fetchLoop_shape (op : ℕ → AttemptResult) (rand : ℕ → ℚ) (m : ℕ) :
    ∀ fuel i, fuel + i = m →
      ∃ n, (fetchWithRetryLoop op rand m i fuel).delays =
          (List.range n).map (fun k => backoffDelay rand (i + k)) ∧
        (0 < fuel → (fetchWithRetryLoop op rand m i fuel).attempts = n + 1) := by
  intro fuel
  induction fuel with
  | zero =>
    intro i hi
    exact ⟨0, rfl, by omega⟩
  | succ fuel ih =>
    intro i hi
    cases hop : op i with
    | resp r =>
      simp only [fetchWithRetryLoop, hop]
      by_cases hok : r.ok = true
      · rw [if_pos hok]
        exact ⟨0, rfl, fun _ => rfl⟩
      · rw [if_neg hok]
        by_cases h429 : r.status = 429 ∧ i < m - 1
        · rw [if_pos h429]
          obtain ⟨n, hd, ha⟩ := ih (i + 1) (by omega)
          refine ⟨n + 1, ?_, fun _ => ?_⟩
          · dsimp only
            rw [hd, backoff_cons_shape]
          · dsimp only
            rw [ha (by omega)]
        · rw [if_neg h429]
          by_cases hlast : i = m - 1
          · rw [if_pos hlast]
            exact ⟨0, rfl, fun _ => rfl⟩
          · rw [if_neg hlast]
            obtain ⟨n, hd, ha⟩ := ih (i + 1) (by omega)
            refine ⟨n + 1, ?_, fun _ => ?_⟩
            · dsimp only
              rw [hd, backoff_cons_shape]
            · dsimp only
              rw [ha (by omega)]
    | netError =>
      simp only [fetchWithRetryLoop, hop]
      by_cases hlast : i = m - 1
      · rw [if_pos hlast]
        exact ⟨0, rfl, fun _ => rfl⟩
      · rw [if_neg hlast]
        obtain ⟨n, hd, ha⟩ := ih (i + 1) (by omega)
        refine ⟨n + 1, ?_, fun _ => ?_⟩
        · dsimp only
          rw [hd, backoff_cons_shape]
        · dsimp only
          rw [ha (by omega)]

/-- Full trace of a run whose operation reports 429 on every attempt:
all the fuel is consumed, the call ends by throwing, and one backoff sleep
happens after every attempt but the last. -/
theorem fetchLoop_always429 (op : ℕ → AttemptResult) (rand : ℕ → ℚ) (m : ℕ)
    (hop : ∀ j, op j = .resp ⟨false, 429⟩) :
    ∀ fuel i, fuel + i = m → 0 < fuel →
      fetchWithRetryLoop op rand m i fuel =
        ⟨.threw, fuel, (List.range (fuel - 1)).map fun k => backoffDelay rand (i + k)⟩ := by
  intro fuel
  induction fuel with
  | zero => intro i _ h0; exact absurd h0 (by omega)
  | succ fuel ih =>
    intro i hi _
    simp only [fetchWithRetryLoop, hop i]
    rw [if_neg (by simp : ¬(⟨false, 429⟩ : Response).ok = true)]
    by_cases hlast : fuel = 0
    · subst hlast
      rw [if_neg (fun hc => absurd hc.2 (by omega)),
        if_pos (by omega : i = m - 1)]
      rfl
    · rw [if_pos (And.intro (by simp) (by omega))]
      rw [ih (i + 1) (by omega) (by omega)]
      refine congrArg (Trace.mk .threw (fuel + 1)) ?_
      rw [show fuel + 1 - 1 = fuel - 1 + 1 by omega]
      exact backoff_cons_shape rand i (fuel - 1)

/-- Within the loop the outcome is never `fellThrough`, and a normal return
always carries an OK response. -/
theorem fetchLoop_outcome (op : ℕ → AttemptResult) (rand : ℕ → ℚ) (m : ℕ) :
    ∀ fuel i, fuel + i = m → 0 < fuel →
      (∀ r, (fetchWithRetryLoop op rand m i fuel).outcome = .returned r →
        r.ok = true) ∧
      (fetchWithRetryLoop op rand m i fuel).outcome ≠ .fellThrough := by
  intro fuel
  induction fuel with
  | zero => intro i _ h0; exact absurd h0 (by omega)
  | succ fuel ih =>
    intro i hi _
    cases hop : op i with
    | resp r =>
      simp only [fetchWithRetryLoop, hop]
      by_cases hok : r.ok = true
      · rw [if_pos hok]
        refine ⟨fun r' hr' => ?_, by simp⟩
        simp only [Trace.outcome, RetryOutcome.returned.injEq] at hr'
        rw [← hr']
        exact hok
      · rw [if_neg hok]
        by_cases h429 : r.status = 429 ∧ i < m - 1
        · rw [if_pos h429]
          have hih := ih (i + 1) (by omega) (by omega)
          exact ⟨fun r' hr' => hih.1 r' hr', hih.2⟩
        · rw [if_neg h429]
          by_cases hlast : i = m - 1
          · rw [if_pos hlast]
            exact ⟨fun r' hr' => by simp at hr', by simp⟩
          · rw [if_neg hlast]
            have hih := ih (i + 1) (by omega) (by omega)
            exact ⟨fun r' hr' => hih.1 r' hr', hih.2⟩
    | netError =>
      simp only [fetchWithRetryLoop, hop]
      by_cases hlast : i = m - 1
      · rw [if_pos hlast]
        exact ⟨fun r' hr' => by simp at hr', by simp⟩
      · rw [if_neg hlast]
        have hih := ih (i + 1) (by omega) (by omega)
        exact ⟨fun r' hr' => hih.1 r' hr', hih.2⟩

/-- A failed attempt that is not the final one is always followed by another
attempt: the attempt counter passes it. -/
theorem fetchLoop_progress (op : ℕ → AttemptResult) (rand : ℕ → ℚ) (m : ℕ) :
    ∀ fuel s, fuel + s = m →
      ∀ i, s ≤ i → i + 1 < m → opFails op i →
        i < s + (fetchWithRetryLoop op rand m s fuel).attempts →
        i + 1 < s + (fetchWithRetryLoop op rand m s fuel).attempts := by
  intro fuel
  induction fuel with
  | zero =>
    intro s hs i hsi _ _ hlt
    simp only [fetchWithRetryLoop, Trace.attempts] at hlt ⊢
    omega
  | succ fuel ih =>
    intro s hs i hsi hi1 hfail hlt
    cases hop : op s with
    | resp r =>
      by_cases hok : r.ok = true
      · -- immediate success: only attempt s occurs, so i = s, contradicting hfail
        simp only [fetchWithRetryLoop, hop, if_pos hok, Trace.attempts] at hlt
        have his : i = s := by omega
        subst his
        rcases hfail with hne | ⟨r', hr', hr'ok⟩
        · rw [hop] at hne
          exact absurd hne (by simp)
        · rw [hop] at hr'
          injection hr' with hrr
          rw [← hrr] at hr'ok
          rw [hok] at hr'ok
          exact absurd hr'ok (by simp)
      · by_cases h429 : r.status = 429 ∧ s < m - 1
        · simp only [fetchWithRetryLoop, hop, if_neg hok, if_pos h429,
            Trace.attempts] at hlt ⊢
          obtain ⟨n, _, ha⟩ := fetchLoop_shape op rand m fuel (s + 1) (by omega)
          have ha' := ha (by omega)
          by_cases his : i = s
          · omega
          · have hih := ih (s + 1) (by omega) i (by omega) hi1 hfail (by omega)
            omega
        · by_cases hlast : s = m - 1
          · -- final failing attempt: attempts = 1 forces i = s = m - 1,
            -- contradicting i + 1 < m
            simp only [fetchWithRetryLoop, hop, if_neg hok, if_neg h429,
              if_pos hlast, Trace.attempts] at hlt
            omega
          · simp only [fetchWithRetryLoop, hop, if_neg hok, if_neg h429,
              if_neg hlast, Trace.attempts] at hlt ⊢
            obtain ⟨n, _, ha⟩ := fetchLoop_shape op rand m fuel (s + 1) (by omega)
            have ha' := ha (by omega)
            by_cases his : i = s
            · omega
            · have hih := ih (s + 1) (by omega) i (by omega) hi1 hfail (by omega)
              omega
    | netError =>
      by_cases hlast : s = m - 1
      · simp only [fetchWithRetryLoop, hop, if_pos hlast, Trace.attempts] at hlt
        omega
      · simp only [fetchWithRetryLoop, hop, if_neg hlast, Trace.attempts] at hlt ⊢
        obtain ⟨n, _, ha⟩ := fetchLoop_shape op rand m fuel (s + 1) (by omega)
        have ha' := ha (by omega)
        by_cases his : i = s
        · omega
        · have hih := ih (s + 1) (by omega) i (by omega) hi1 hfail (by omega)
          omega

theorem backoffDelay_mono (rand : ℕ → ℚ)
    (hrand : ∀ j, 0 ≤ rand j ∧ rand j < 1) (k : ℕ) :
    backoffDelay rand k ≤ backoffDelay rand (k + 1) := by
  unfold backoffDelay
  have h1 := (hrand k).2
  have h2 := (hrand (k + 1)).1
  have hpk : (1 : ℚ) ≤ 2 ^ k := one_le_pow₀ (by norm_num)
  have hp : (2 : ℚ) ^ (k + 1) = 2 ^ k + 2 ^ k := by ring
  rw [hp]
  nlinarith

/-- C4: for an operation that reports a rate-limited (429) status on every
call, `fetchWithRetry` with `maxRetries = 5` invokes the operation exactly 5
times, sleeps 4 backoff delays that are non-decreasing, and terminates by
throwing the failure to the caller. -/
theorem fetchWithRetry_rate_limited (op : ℕ → AttemptResult) (rand : ℕ → ℚ)
    (hop : ∀ j, op j = .resp ⟨false, 429⟩)
    (hrand : ∀ j, 0 ≤ rand j ∧ rand j < 1) :
    (fetchWithRetry op rand 5).attempts = 5 ∧
    (fetchWithRetry op rand 5).outcome = .threw ∧
    (fetchWithRetry op rand 5).delays.length = 4 ∧
    (fetchWithRetry op rand 5).delays.Chain' (· ≤ ·) := by
  have h := fetchLoop_always429 op rand 5 hop 5 0 (by omega) (by omega)
  unfold fetchWithRetry
  rw [h]
  refine ⟨rfl, rfl, by simp, ?_⟩
  have hr : List.range (5 - 1) = [0, 1, 2, 3] := rfl
  rw [Trace.delays, hr]
  simp only [List.map_cons, List.map_nil, List.chain'_cons, List.chain'_singleton,
    and_true, Nat.zero_add]
  exact ⟨backoffDelay_mono rand hrand 0, backoffDelay_mono rand hrand 1,
    backoffDelay_mono rand hrand 2⟩

/-- Witness for `fetchWithRetry_rate_limited` with the constant 429 operation
and a zero random source. -/
theorem fetchWithRetry_rate_limited_witness :
    (fetchWithRetry op429 zeroRand 5).attempts = 5 ∧
    (fetchWithRetry op429 zeroRand 5).outcome = .threw ∧
    (fetchWithRetry op429 zeroRand 5).delays.length = 4 ∧
    (fetchWithRetry op429 zeroRand 5).delays.Chain' (· ≤ ·) :=
  fetchWithRetry_rate_limited op429 zeroRand (fun _ => rfl)
    (fun _ => ⟨le_refl 0, by norm_num [zeroRand]⟩)

/-- C5 (amended): the delay slept after attempt `i` is exactly
`baseDelay * 2 ^ i + jitter` with `baseDelay = 1000` ms and jitter
`Math.random() * 1000` — there is no cap on the exponential term. -/
theorem fetchWithRetry_delay_formula (op : ℕ → AttemptResult) (rand : ℕ → ℚ)
    (m i : ℕ) (d : ℚ)
    (hd : (fetchWithRetry op rand m).delays[i]? = some d) :
    d = 2 ^ i * 1000 + rand i * 1000 := by
  obtain ⟨n, hsh, -⟩ := fetchLoop_shape op rand m m 0 (by omega)
  unfold fetchWithRetry at hd
  rw [hsh, List.getElem?_map] at hd
  by_cases hin : i < n
  · rw [List.getElem?_range hin] at hd
    simp only [Option.map_some', Option.some_inj] at hd
    rw [← hd]
    simp [backoffDelay]
  · rw [List.getElem?_eq_none (by simpa using hin)] at hd
    simp at hd

/-- Witness for `fetchWithRetry_delay_formula`: the second delay of an
always-rate-limited run with three retries is 2000 ms. -/
theorem fetchWithRetry_delay_formula_witness :
    (fetchWithRetry op429 zeroRand 3).delays[1]? = some 2000 ∧
    (2000 : ℚ) = 2 ^ 1 * 1000 + zeroRand 1 * 1000 := by
  have hd : (fetchWithRetry op429 zeroRand 3).delays[1]? = some 2000 := by
    have hrun := fetchLoop_always429 op429 zeroRand 3 (fun _ => rfl) 3 0
      (by omega) (by omega)
    unfold fetchWithRetry
    rw [hrun, Trace.delays, List.getElem?_map,
      List.getElem?_range (by omega : 1 < 3 - 1)]
    simp only [Option.map_some', Option.some_inj, backoffDelay, zeroRand]
    norm_num
  exact ⟨hd, fetchWithRetry_delay_formula op429 zeroRand 3 1 2000 hd⟩

/-- C5 (counterexample): there is no fixed cap `c` such that every slept delay
equals `min c (1000 * 2 ^ i) + jitter`: for any candidate cap, a long enough
always-rate-limited run sleeps an uncapped exponential delay exceeding it. -/
theorem no_backoff_cap :
    ¬∃ cap : ℚ, ∀ (op : ℕ → AttemptResult) (rand : ℕ → ℚ) (m i : ℕ) (d : ℚ),
      (∀ j, 0 ≤ rand j ∧ rand j < 1) →
      op i = .resp ⟨false, 429⟩ →
      (fetchWithRetry op rand m).delays[i]? = some d →
      d = min cap (2 ^ i * 1000) + rand i * 1000 := by
  rintro ⟨cap, hcap⟩
  obtain ⟨n, hn⟩ : ∃ n : ℕ, cap < 2 ^ n * 1000 := by
    obtain ⟨k, hk⟩ := exists_nat_gt cap
    refine ⟨k, hk.trans_le ?_⟩
    calc (k : ℚ) ≤ 2 ^ k := by exact_mod_cast (Nat.lt_two_pow k).le
    _ ≤ 2 ^ k * 1000 := by nlinarith [pow_pos (by norm_num : (0 : ℚ) < 2) k]
  have hrun := fetchLoop_always429 op429 zeroRand (n + 2) (fun _ => rfl)
    (n + 2) 0 (by omega) (by omega)
  have hd : (fetchWithRetry op429 zeroRand (n + 2)).delays[n]? =
      some (backoffDelay zeroRand (0 + n)) := by
    unfold fetchWithRetry
    rw [hrun, Trace.delays, List.getElem?_map,
      List.getElem?_range (by omega : n < n + 2 - 1)]
    rfl
  have heq := hcap op429 zeroRand (n + 2) n (backoffDelay zeroRand (0 + n))
    (fun _ => ⟨le_refl 0, by norm_num [zeroRand]⟩) rfl hd
  rw [min_eq_left hn.le] at heq
  unfold backoffDelay zeroRand at heq
  simp only [Nat.zero_add, zero_mul, add_zero] at heq
  exact absurd heq (by nlinarith)

/-- C9: with at least one allowed attempt, `fetchWithRetry` never returns a
non-OK response: a normal return carries an OK response, the call never falls
off the loop, and a failed attempt that is not the final one is followed by a
further attempt rather than being surfaced. -/
theorem fetchWithRetry_returns_ok (op : ℕ → AttemptResult) (rand : ℕ → ℚ)
    (m : ℕ) (hm : 1 ≤ m) :
    (∀ r, (fetchWithRetry op rand m).outcome = .returned r → r.ok = true) ∧
    (fetchWithRetry op rand m).outcome ≠ .fellThrough ∧
    (∀ i, i + 1 < m → opFails op i →
      i < (fetchWithRetry op rand m).attempts →
      i + 1 < (fetchWithRetry op rand m).attempts) := by
  have h1 := fetchLoop_outcome op rand m m 0 (by omega) (by omega)
  refine ⟨h1.1, h1.2, fun i hi hf ha => ?_⟩
  have := fetchLoop_progress op rand m m 0 (by omega) i (by omega) hi hf
    (by simpa using ha)
  simpa using this

/-- Witness for `fetchWithRetry_returns_ok` with a constantly failing (500)
operation and two attempts. -/
theorem fetchWithRetry_returns_ok_witness :
    (fetchWithRetry op500 zeroRand 2).outcome ≠ .fellThrough ∧
    1 < (fetchWithRetry op500 zeroRand 2).attempts :=
  ⟨(fetchWithRetry_returns_ok op500 zeroRand 2 (by norm_num)).2.1,
   (fetchWithRetry_returns_ok op500 zeroRand 2 (by norm_num)).2.2 0 (by norm_num)
     (Or.inr ⟨⟨false, 500⟩, rfl, rfl⟩) (by decide)⟩

/-! ### Recurring-event theorems (C3) -/

/-- The generalized recurring computation lands on the target weekday at the
target time-of-day, strictly after `now`, and is the least such instant
strictly after `now`. -/
theorem nextOccurrence_spec (w hh mm now : ℕ) (hw : w < 7) (hh24 : hh < 24)
    (hmm : mm < 60) :
    weekday (nextOccurrence w hh mm now) = w ∧
    nextOccurrence w hh mm now % msPerDay = hh * msPerHour + mm * msPerMinute ∧
    now < nextOccurrence w hh mm now ∧
    ∀ u, now < u → weekday u = w →
      u % msPerDay = hh * msPerHour + mm * msPerMinute →
      nextOccurrence w hh mm now ≤ u := by
  unfold nextOccurrence weekday hourOf minuteOf msPerDay msPerHour msPerMinute
  refine ⟨?_, ?_, ?_, ?_⟩
  · split_ifs with h <;> omega
  · split_ifs with h <;> omega
  · split_ifs with h <;> omega
  · intro u h1 h2 h3
    split_ifs with h <;> omega

/-- C3 (amended): for both recurring events of part_001 the computed next
occurrence falls on the configured weekday at the configured time-of-day and
is the smallest such timestamp *strictly greater than* `now` (at an instant
that is exactly a slot, the code rolls a full week ahead, so "at or after
now" does not hold; see `nextWorship_rolls_at_exact_slot`). -/
theorem recurring_next_occurrence_spec (now : ℕ) :
    (weekday (nextWorship now) = 0 ∧
     nextWorship now % msPerDay = 10 * msPerHour + 30 * msPerMinute ∧
     now < nextWorship now ∧
     ∀ u, now < u → weekday u = 0 →
       u % msPerDay = 10 * msPerHour + 30 * msPerMinute → nextWorship now ≤ u) ∧
    (weekday (nextPrayer now) = 5 ∧
     nextPrayer now % msPerDay = 19 * msPerHour ∧
     now < nextPrayer now ∧
     ∀ u, now < u → weekday u = 5 →
       u % msPerDay = 19 * msPerHour → nextPrayer now ≤ u) := by
  constructor
  · exact nextOccurrence_spec 0 10 30 now (by norm_num) (by norm_num) (by norm_num)
  · obtain ⟨h1, h2, h3, h4⟩ :=
      nextOccurrence_spec 5 19 0 now (by norm_num) (by norm_num) (by norm_num)
    refine ⟨h1, by simpa using h2, h3, fun u hu hw hm => h4 u hu hw (by simpa using hm)⟩

/-- Witness for `recurring_next_occurrence_spec`: minimality applied at
`now = 0` (a Sunday midnight) against this week's Sunday 10:30:00.000 and
Friday 19:00:00.000 slots. -/
theorem recurring_next_occurrence_spec_witness :
    nextWorship 0 ≤ 37800000 ∧ nextPrayer 0 ≤ 500400000 :=
  ⟨(recurring_next_occurrence_spec 0).1.2.2.2 37800000 (by decide) (by decide)
     (by decide),
   (recurring_next_occurrence_spec 0).2.2.2.2 500400000 (by decide) (by decide)
     (by decide)⟩

/-- C3 (counterexample): at `now` = Sunday 10:30:00.000 exactly (37800000 ms
past a Sunday midnight), `now` itself is an occurrence with the configured
weekday and time-of-day — so the smallest occurrence at-or-after `now` is
`now` — yet the code returns the slot a full week later. -/
theorem nextWorship_rolls_at_exact_slot :
    weekday 37800000 = 0 ∧
    37800000 % msPerDay = 10 * msPerHour + 30 * msPerMinute ∧
    nextWorship 37800000 = 642600000 ∧
    37800000 < 642600000 := by
  refine ⟨?_, ?_, ?_, ?_⟩ <;> decide

/-- Witness for `selectNext_none_cases` on a single long-concluded event. -/
theorem selectNext_none_cases_witness :
    selectNextJS 0 concludedEvents = none ∧
    bannerJS noFmt 0 concludedEvents = "No upcoming events." ∧
    selectNext000 0 concludedEvents = none ∧
    banner000 noFmt 0 concludedEvents = "No upcoming events scheduled." := by
  have h := selectNext_none_cases noFmt 0 concludedEvents
  obtain ⟨h1, h2⟩ := (h.2.1 (by decide))
  obtain ⟨h3, h4⟩ := (h.2.2 (by decide))
  exact ⟨h1, h2, h3, h4⟩

end Icfpdx
